import Mathlib

/-!
Shallow embedding of the ring-buffer crate (src/lib.rs).

The Rust code stores bytes in a fixed array of length RING_SIZE = 1024 with
two cursors start and end delimiting the valid window [start, end), both taken
modulo RING_SIZE.  Bytes are modelled as Nat (no arithmetic is ever performed
on them), the backing array as a List Nat of length RING_SIZE, and the
mutable methods as pure state-passing functions.
-/

def RING_SIZE : Nat := 1024

/-- The state of the Rust struct RingBuffer: backing storage, start cursor
(inclusive) and end cursor (exclusive).  The field end is named end_ because
end is a Lean keyword. -/
structure RingBuffer where
  buf : List Nat
  start : Nat
  end_ : Nat
deriving DecidableEq

/-- Rust fn new: zero-filled storage, start = 0, end = 1. -/
def RingBuffer.new : RingBuffer :=
  { buf := List.replicate RING_SIZE 0, start := 0, end_ := 1 }

/-- Rust fn len: end - start if start < end, else RING_SIZE - (start - end). -/
def RingBuffer.len (rb : RingBuffer) : Nat :=
  if rb.start < rb.end_ then rb.end_ - rb.start
  else RING_SIZE - (rb.start - rb.end_)

/-- Rust fn clear: start = 0, end = 1, buf[0] = 0. -/
def RingBuffer.clear (rb : RingBuffer) : RingBuffer :=
  { buf := rb.buf.set 0 0, start := 0, end_ := 1 }

/-- Rust fn push: writes val at index end; if start == end also advances
start (overflow, returns true); always advances end.  Both cursor advances
are modulo RING_SIZE. -/
def RingBuffer.push (rb : RingBuffer) (val : Nat) : RingBuffer × Bool :=
  if rb.start = rb.end_ then
    ({ buf := rb.buf.set rb.end_ val,
       start := (rb.start + 1) % RING_SIZE,
       end_ := (rb.end_ + 1) % RING_SIZE }, true)
  else
    ({ buf := rb.buf.set rb.end_ val,
       start := rb.start,
       end_ := (rb.end_ + 1) % RING_SIZE }, false)

/-- Rust fn append: pushes each element of vec in order, the returned flag
being overwritten by each push (so the result is the last push's flag,
false when vec is empty). -/
def RingBuffer.append (rb : RingBuffer) (vec : List Nat) : RingBuffer × Bool :=
  vec.foldl (fun p v => p.1.push v) (rb, false)

/-- Rust fn get_all: copies the len() bytes buf[(start + i) % RING_SIZE]
for i = 0 .. len()-1 into a fresh vector. -/
def RingBuffer.get_all (rb : RingBuffer) : List Nat :=
  (List.range rb.len).map (fun i => rb.buf.getD ((rb.start + i) % RING_SIZE) 0)

/-- Rust fn read: Some buf[(index + start) % RING_SIZE] when index < len(),
None otherwise. -/
def RingBuffer.read (rb : RingBuffer) (index : Nat) : Option Nat :=
  if index < rb.len then some (rb.buf.getD ((index + rb.start) % RING_SIZE) 0)
  else none

/-- Rust fn shift_l: when num < len() advances start by num modulo RING_SIZE
and returns Ok; otherwise returns Err and leaves the state untouched.  The
Rust method mutates self and returns Result, so the embedding returns the
(possibly unchanged) state next to the Result. -/
def RingBuffer.shift_l (rb : RingBuffer) (num : Nat) :
    RingBuffer × Except String Unit :=
  if num < rb.len then
    ({ rb with start := (rb.start + num) % RING_SIZE }, Except.ok ())
  else
    (rb, Except.error "Shift num is out of length.")

/-- States reachable from construction through the public mutating API. -/
inductive Reachable : RingBuffer → Prop where
  | new : Reachable RingBuffer.new
  | clear {rb : RingBuffer} : Reachable rb → Reachable rb.clear
  | push {rb : RingBuffer} {v : Nat} : Reachable rb → Reachable (rb.push v).1
  | append {rb : RingBuffer} {vec : List Nat} :
      Reachable rb → Reachable (rb.append vec).1
  | shift {rb : RingBuffer} {num : Nat} :
      Reachable rb → Reachable (rb.shift_l num).1

/-- Structural well-formedness: the storage has length RING_SIZE and both
cursors are in range. -/
def RingBuffer.Wf (rb : RingBuffer) : Prop :=
  rb.buf.length = RING_SIZE ∧ rb.start < RING_SIZE ∧ rb.end_ < RING_SIZE

/-- Repeated push, one element at a time, ignoring the flags.  This is the
state component of append. -/
def RingBuffer.pushAll (rb : RingBuffer) (s : List Nat) : RingBuffer :=
  s.foldl (fun b v => (b.push v).1) rb

theorem RING_SIZE_pos : 0 < RING_SIZE := by norm_num [RING_SIZE]

theorem append_fst (l : List Nat) (p : RingBuffer × Bool) :
    (l.foldl (fun q v => q.1.push v) p).1 = p.1.pushAll l := by
  induction l generalizing p with
  | nil => rfl
  | cons a t ih => exact ih (p.1.push a)

theorem append_eq_pushAll (rb : RingBuffer) (vec : List Nat) :
    (rb.append vec).1 = rb.pushAll vec :=
  append_fst vec (rb, false)

theorem wf_new : RingBuffer.new.Wf := by
  refine ⟨?_, ?_, ?_⟩
  · simp [RingBuffer.new]
  · norm_num [RingBuffer.new, RING_SIZE]
  · norm_num [RingBuffer.new, RING_SIZE]

theorem wf_clear {rb : RingBuffer} (h : rb.Wf) : rb.clear.Wf := by
  obtain ⟨h1, h2, h3⟩ := h
  refine ⟨?_, ?_, ?_⟩
  · simp [RingBuffer.clear, h1]
  · norm_num [RingBuffer.clear, RING_SIZE]
  · norm_num [RingBuffer.clear, RING_SIZE]

theorem wf_push {rb : RingBuffer} (h : rb.Wf) (v : Nat) : (rb.push v).1.Wf := by
  obtain ⟨h1, h2, h3⟩ := h
  unfold RingBuffer.push
  split
  · exact ⟨by simpa using h1, Nat.mod_lt _ RING_SIZE_pos, Nat.mod_lt _ RING_SIZE_pos⟩
  · exact ⟨by simpa using h1, h2, Nat.mod_lt _ RING_SIZE_pos⟩

theorem wf_pushAll {rb : RingBuffer} (h : rb.Wf) (s : List Nat) :
    (rb.pushAll s).Wf := by
  induction s generalizing rb with
  | nil => exact h
  | cons a t ih => exact ih (wf_push h a)

theorem wf_append {rb : RingBuffer} (h : rb.Wf) (vec : List Nat) :
    (rb.append vec).1.Wf := by
  rw [append_eq_pushAll]
  exact wf_pushAll h vec

theorem wf_shift {rb : RingBuffer} (h : rb.Wf) (num : Nat) :
    (rb.shift_l num).1.Wf := by
  obtain ⟨h1, h2, h3⟩ := h
  unfold RingBuffer.shift_l
  split
  · exact ⟨h1, Nat.mod_lt _ RING_SIZE_pos, h3⟩
  · exact ⟨h1, h2, h3⟩

theorem reachable_wf {rb : RingBuffer} (h : Reachable rb) : rb.Wf := by
  induction h with
  | new => exact wf_new
  | clear _ ih => exact wf_clear ih
  | push _ ih => exact wf_push ih _
  | append _ ih => exact wf_append ih _
  | shift _ ih => exact wf_shift ih _

theorem len_pos {rb : RingBuffer} (h : rb.Wf) : 1 ≤ rb.len := by
  obtain ⟨h1, h2, h3⟩ := h
  unfold RingBuffer.len
  split <;> omega

theorem len_le {rb : RingBuffer} (h : rb.Wf) : rb.len ≤ RING_SIZE := by
  obtain ⟨h1, h2, h3⟩ := h
  unfold RingBuffer.len
  split <;> omega

theorem len_eq_size_iff {rb : RingBuffer} (h : rb.Wf) :
    rb.len = RING_SIZE ↔ rb.start = rb.end_ := by
  obtain ⟨h1, h2, h3⟩ := h
  unfold RingBuffer.len
  simp only [RING_SIZE] at *
  split <;> omega

theorem getD_set_ne (l : List Nat) {i j : Nat} (v : Nat) (h : i ≠ j) :
    (l.set i v).getD j 0 = l.getD j 0 := by
  simp [List.getD_eq_getElem?_getD, List.getElem?_set_ne h]

theorem getD_set_self (l : List Nat) {i : Nat} (v : Nat) (h : i < l.length) :
    (l.set i v).getD i 0 = v := by
  simp [List.getD_eq_getElem?_getD, List.getElem?_set_self h]

theorem start_add_len {rb : RingBuffer} (h : rb.Wf) :
    (rb.start + rb.len) % RING_SIZE = rb.end_ := by
  obtain ⟨h1, h2, h3⟩ := h
  unfold RingBuffer.len
  simp only [RING_SIZE] at *
  split <;> omega

theorem mid_ne_end {rb : RingBuffer} (h : rb.Wf) (hne : rb.start ≠ rb.end_)
    {i : Nat} (hi : i < rb.len) : (rb.start + i) % RING_SIZE ≠ rb.end_ := by
  obtain ⟨h1, h2, h3⟩ := h
  unfold RingBuffer.len at hi
  simp only [RING_SIZE] at h2 h3 hi ⊢
  split at hi <;> omega

theorem push_snd (rb : RingBuffer) (v : Nat) :
    (rb.push v).2 = true ↔ rb.start = rb.end_ := by
  unfold RingBuffer.push
  split <;> simp_all

theorem len_push {rb : RingBuffer} (h : rb.Wf) (v : Nat) :
    (rb.push v).1.len = if rb.start = rb.end_ then RING_SIZE else rb.len + 1 := by
  obtain ⟨b, s, e⟩ := rb
  have h1 : b.length = RING_SIZE := h.1
  have h2 : s < RING_SIZE := h.2.1
  have h3 : e < RING_SIZE := h.2.2
  unfold RingBuffer.push
  rcases eq_or_ne s e with hse | hse
  · rw [if_pos (show (⟨b, s, e⟩ : RingBuffer).start = (⟨b, s, e⟩ : RingBuffer).end_ from hse)]
    rw [if_pos hse]
    show RingBuffer.len ⟨b.set e v, (s + 1) % RING_SIZE, (e + 1) % RING_SIZE⟩ = RING_SIZE
    unfold RingBuffer.len
    subst hse
    simp
  · rw [if_neg (show ¬ (⟨b, s, e⟩ : RingBuffer).start = (⟨b, s, e⟩ : RingBuffer).end_ from hse)]
    rw [if_neg hse]
    show RingBuffer.len ⟨b.set e v, s, (e + 1) % RING_SIZE⟩ = RingBuffer.len ⟨b, s, e⟩ + 1
    unfold RingBuffer.len
    simp only [RING_SIZE] at *
    split <;> split <;> omega

theorem get_all_length (rb : RingBuffer) : rb.get_all.length = rb.len := by
  simp [RingBuffer.get_all]

theorem range_size_last :
    List.range RING_SIZE = List.range (RING_SIZE - 1) ++ [RING_SIZE - 1] := by
  conv_lhs => rw [show RING_SIZE = (RING_SIZE - 1) + 1 from by
    have := RING_SIZE_pos; omega]
  rw [List.range_succ]

theorem range_size_head :
    List.range RING_SIZE = 0 :: (List.range (RING_SIZE - 1)).map Nat.succ := by
  conv_lhs => rw [show RING_SIZE = (RING_SIZE - 1) + 1 from by
    have := RING_SIZE_pos; omega]
  rw [List.range_succ_eq_map]

theorem get_all_push {rb : RingBuffer} (h : rb.Wf) (v : Nat) :
    (rb.push v).1.get_all =
      if rb.start = rb.end_ then rb.get_all.tail ++ [v] else rb.get_all ++ [v] := by
  obtain ⟨b, s, e⟩ := rb
  have h1 : b.length = RING_SIZE := h.1
  have h2 : s < RING_SIZE := h.2.1
  have h3 : e < RING_SIZE := h.2.2
  unfold RingBuffer.push
  rcases eq_or_ne s e with hse | hse
  · rw [if_pos (show (⟨b, s, e⟩ : RingBuffer).start = (⟨b, s, e⟩ : RingBuffer).end_ from hse)]
    rw [if_pos hse]
    subst hse
    show RingBuffer.get_all ⟨b.set s v, (s + 1) % RING_SIZE, (s + 1) % RING_SIZE⟩ =
      (RingBuffer.get_all ⟨b, s, s⟩).tail ++ [v]
    have hlenL : RingBuffer.len
        ⟨b.set s v, (s + 1) % RING_SIZE, (s + 1) % RING_SIZE⟩ = RING_SIZE := by
      unfold RingBuffer.len; simp
    have hlenR : RingBuffer.len ⟨b, s, s⟩ = RING_SIZE := by
      unfold RingBuffer.len; simp
    show (List.range (RingBuffer.len ⟨b.set s v, (s + 1) % RING_SIZE, (s + 1) % RING_SIZE⟩)).map
        (fun i => (b.set s v).getD (((s + 1) % RING_SIZE + i) % RING_SIZE) 0) =
      ((List.range (RingBuffer.len ⟨b, s, s⟩)).map
        (fun i => b.getD ((s + i) % RING_SIZE) 0)).tail ++ [v]
    rw [hlenL, hlenR]
    conv_lhs => rw [range_size_last]
    conv_rhs => rw [range_size_head]
    simp only [List.map_append, List.map_cons, List.map_nil, List.map_map, List.tail_cons]
    have hmain : (List.range (RING_SIZE - 1)).map
        (fun i => (b.set s v).getD (((s + 1) % RING_SIZE + i) % RING_SIZE) 0) =
      (List.range (RING_SIZE - 1)).map
        ((fun i => b.getD ((s + i) % RING_SIZE) 0) ∘ Nat.succ) := by
      apply List.map_congr_left
      intro i hi
      rw [List.mem_range] at hi
      have hidx : ((s + 1) % RING_SIZE + i) % RING_SIZE = (s + Nat.succ i) % RING_SIZE := by
        simp only [RING_SIZE] at *; omega
      have hne2 : s ≠ (s + Nat.succ i) % RING_SIZE := by
        simp only [RING_SIZE] at *; omega
      simp only [Function.comp_apply, hidx]
      exact getD_set_ne b v hne2
    have hlast : (b.set s v).getD (((s + 1) % RING_SIZE + (RING_SIZE - 1)) % RING_SIZE) 0
        = v := by
      have hidx : ((s + 1) % RING_SIZE + (RING_SIZE - 1)) % RING_SIZE = s := by
        simp only [RING_SIZE] at *; omega
      rw [hidx, getD_set_self b v (by omega)]
    rw [hmain, hlast]
  · rw [if_neg (show ¬ (⟨b, s, e⟩ : RingBuffer).start = (⟨b, s, e⟩ : RingBuffer).end_ from hse)]
    rw [if_neg hse]
    show RingBuffer.get_all ⟨b.set e v, s, (e + 1) % RING_SIZE⟩ =
      RingBuffer.get_all ⟨b, s, e⟩ ++ [v]
    have hlenL : RingBuffer.len ⟨b.set e v, s, (e + 1) % RING_SIZE⟩ =
        RingBuffer.len ⟨b, s, e⟩ + 1 := by
      unfold RingBuffer.len
      simp only [RING_SIZE] at *
      split <;> split <;> omega
    show (List.range (RingBuffer.len ⟨b.set e v, s, (e + 1) % RING_SIZE⟩)).map
        (fun i => (b.set e v).getD ((s + i) % RING_SIZE) 0) =
      (List.range (RingBuffer.len ⟨b, s, e⟩)).map
        (fun i => b.getD ((s + i) % RING_SIZE) 0) ++ [v]
    rw [hlenL, List.range_succ]
    simp only [List.map_append, List.map_cons, List.map_nil]
    have hmain : (List.range (RingBuffer.len ⟨b, s, e⟩)).map
        (fun i => (b.set e v).getD ((s + i) % RING_SIZE) 0) =
      (List.range (RingBuffer.len ⟨b, s, e⟩)).map
        (fun i => b.getD ((s + i) % RING_SIZE) 0) := by
      apply List.map_congr_left
      intro i hi
      rw [List.mem_range] at hi
      have hne2 : e ≠ (s + i) % RING_SIZE :=
        fun hc => mid_ne_end h hse hi hc.symm
      exact getD_set_ne b v hne2
    have hlast : (b.set e v).getD ((s + RingBuffer.len ⟨b, s, e⟩) % RING_SIZE) 0 = v := by
      have hidx : (s + RingBuffer.len ⟨b, s, e⟩) % RING_SIZE = e := start_add_len h
      rw [hidx, getD_set_self b v (by omega)]
    rw [hmain, hlast]

/-- Abstract one-push step on the logical contents: append the new byte,
dropping the oldest byte first when the window is already at capacity. -/
def pushModel (l : List Nat) (v : Nat) : List Nat :=
  if l.length = RING_SIZE then l.tail ++ [v] else l ++ [v]

theorem get_all_push_model {rb : RingBuffer} (h : rb.Wf) (v : Nat) :
    (rb.push v).1.get_all = pushModel rb.get_all v := by
  rw [get_all_push h v]
  unfold pushModel
  rcases eq_or_ne rb.start rb.end_ with hse | hse
  · rw [if_pos hse, if_pos (by rw [get_all_length]; exact (len_eq_size_iff h).mpr hse)]
  · rw [if_neg hse, if_neg (by rw [get_all_length]; exact fun hc => hse ((len_eq_size_iff h).mp hc))]

theorem get_all_pushAll {rb : RingBuffer} (h : rb.Wf) (s : List Nat) :
    (rb.pushAll s).get_all = s.foldl pushModel rb.get_all := by
  induction s generalizing rb with
  | nil => rfl
  | cons a t ih =>
      show ((rb.push a).1.pushAll t).get_all = t.foldl pushModel (pushModel rb.get_all a)
      rw [ih (wf_push h a), get_all_push_model h a]

theorem foldl_pushModel (s : List Nat) : ∀ l₀ : List Nat, l₀ ≠ [] →
    l₀.length ≤ RING_SIZE →
    s.foldl pushModel l₀ = (l₀ ++ s).drop (l₀.length + s.length - RING_SIZE) := by
  induction s with
  | nil =>
      intro l₀ hne hle
      simp only [List.foldl_nil, List.append_nil, List.length_nil, Nat.add_zero,
        Nat.sub_eq_zero_of_le hle, List.drop_zero]
  | cons a t ih =>
      intro l₀ hne hle
      show t.foldl pushModel (pushModel l₀ a) =
        (l₀ ++ a :: t).drop (l₀.length + (a :: t).length - RING_SIZE)
      by_cases hfull : l₀.length = RING_SIZE
      · obtain ⟨x, l₀', rfl⟩ : ∃ x l', l₀ = x :: l' := by
          cases l₀ with
          | nil => exact absurd rfl hne
          | cons x l' => exact ⟨x, l', rfl⟩
        have hstep : pushModel (x :: l₀') a = l₀' ++ [a] := by
          simp [pushModel, hfull]
        rw [hstep, ih (l₀' ++ [a]) (by simp) (by simp at hfull ⊢; omega)]
        have hL : (l₀' ++ [a]).length + t.length - RING_SIZE = t.length := by
          simp at hfull ⊢; omega
        have hR : (x :: l₀').length + (a :: t).length - RING_SIZE = t.length + 1 := by
          simp at hfull ⊢; omega
        rw [hL, hR]
        rw [show (x :: l₀') ++ a :: t = x :: (l₀' ++ a :: t) from rfl]
        rw [List.drop_succ_cons]
        rw [show (l₀' ++ [a]) ++ t = l₀' ++ a :: t from by simp]
      · have hstep : pushModel l₀ a = l₀ ++ [a] := by
          simp [pushModel, hfull]
        rw [hstep, ih (l₀ ++ [a]) (by simp) (by simp; omega)]
        rw [show (l₀ ++ [a]) ++ t = l₀ ++ a :: t from by simp]
        have harith : (l₀ ++ [a]).length + t.length = l₀.length + (a :: t).length := by
          simp; omega
        rw [harith]

theorem len_new : RingBuffer.new.len = 1 := rfl

theorem get_all_new : RingBuffer.new.get_all = [0] := by
  unfold RingBuffer.get_all
  rw [len_new]
  rw [show List.range 1 = [0] from rfl, List.map_cons, List.map_nil]
  show [(List.replicate RING_SIZE 0).getD ((0 + 0) % RING_SIZE) 0] = [0]
  rw [show (0 + 0) % RING_SIZE = 0 from by simp]
  rw [List.getD_eq_getElem?_getD,
    List.getElem?_replicate_of_lt RING_SIZE_pos]
  rfl

theorem pushAll_new_get_all (s : List Nat) :
    (RingBuffer.new.pushAll s).get_all = ([0] ++ s).drop (1 + s.length - RING_SIZE) := by
  rw [get_all_pushAll wf_new s, get_all_new,
    foldl_pushModel s [0] (by simp) (by norm_num [RING_SIZE])]
  norm_num

theorem len_pushAll_new (s : List Nat) :
    (RingBuffer.new.pushAll s).len = min (1 + s.length) RING_SIZE := by
  rw [← get_all_length, pushAll_new_get_all, List.length_drop]
  simp only [List.length_append, List.length_singleton]
  omega

theorem append_snd_last (rb : RingBuffer) (t : List Nat) (v : Nat) :
    (rb.append (t ++ [v])).2 = ((rb.pushAll t).push v).2 := by
  unfold RingBuffer.append
  rw [List.foldl_append]
  show ((t.foldl (fun q v => q.1.push v) (rb, false)).1.push v).2 =
    ((rb.pushAll t).push v).2
  rw [append_fst]

theorem push_buf (rb : RingBuffer) (v : Nat) :
    (rb.push v).1.buf = rb.buf.set rb.end_ v := by
  unfold RingBuffer.push
  split <;> rfl

theorem push_end (rb : RingBuffer) (v : Nat) :
    (rb.push v).1.end_ = (rb.end_ + 1) % RING_SIZE := by
  unfold RingBuffer.push
  split <;> rfl

theorem push_start_full {rb : RingBuffer} (hse : rb.start = rb.end_) (v : Nat) :
    (rb.push v).1.start = (rb.start + 1) % RING_SIZE := by
  unfold RingBuffer.push
  rw [if_pos hse]

theorem push_start_nonfull {rb : RingBuffer} (hse : rb.start ≠ rb.end_) (v : Nat) :
    (rb.push v).1.start = rb.start := by
  unfold RingBuffer.push
  rw [if_neg hse]

theorem len_shift_mk (b : List Nat) (s e : Nat)
    (hs : s < RING_SIZE) (he : e < RING_SIZE) {k : Nat}
    (hk : k < RingBuffer.len ⟨b, s, e⟩) :
    RingBuffer.len ⟨b, (s + k) % RING_SIZE, e⟩ = RingBuffer.len ⟨b, s, e⟩ - k := by
  unfold RingBuffer.len at hk ⊢
  simp only [RING_SIZE] at *
  rcases Nat.lt_or_ge s e with hlt | hge
  · rw [if_pos hlt] at hk ⊢
    split <;> omega
  · have hlt' : ¬ s < e := by omega
    rw [if_neg hlt'] at hk ⊢
    split <;> omega

theorem shift_l_ok_eq {rb : RingBuffer} {num : Nat} (hnum : num < rb.len) :
    rb.shift_l num =
      ({ rb with start := (rb.start + num) % RING_SIZE }, Except.ok ()) := by
  unfold RingBuffer.shift_l
  rw [if_pos hnum]

theorem shift_l_err_eq {rb : RingBuffer} {num : Nat} (hnum : ¬ num < rb.len) :
    rb.shift_l num = (rb, Except.error "Shift num is out of length.") := by
  unfold RingBuffer.shift_l
  rw [if_neg hnum]

theorem len_shift {rb : RingBuffer} (h : rb.Wf) {k : Nat} (hk : k < rb.len) :
    (rb.shift_l k).1.len = rb.len - k := by
  obtain ⟨b, s, e⟩ := rb
  rw [shift_l_ok_eq hk]
  exact len_shift_mk b s e h.2.1 h.2.2 hk

theorem shift_l_zero {rb : RingBuffer} (h : rb.Wf) :
    rb.shift_l 0 = (rb, Except.ok ()) := by
  obtain ⟨b, s, e⟩ := rb
  rw [shift_l_ok_eq (len_pos h)]
  have hs : (s + 0) % RING_SIZE = s := by
    rw [Nat.add_zero]
    exact Nat.mod_eq_of_lt h.2.1
  show ((⟨b, (s + 0) % RING_SIZE, e⟩ : RingBuffer), Except.ok ()) = (⟨b, s, e⟩, Except.ok ())
  rw [hs]

theorem read_shift {rb : RingBuffer} (h : rb.Wf) {k : Nat} (hk : k < rb.len)
    (i : Nat) (hik : i + k < rb.len) :
    (rb.shift_l k).1.read i = rb.read (i + k) := by
  obtain ⟨b, s, e⟩ := rb
  have h1 : b.length = RING_SIZE := h.1
  have h2 : s < RING_SIZE := h.2.1
  have h3 : e < RING_SIZE := h.2.2
  rw [shift_l_ok_eq hk]
  show RingBuffer.read ⟨b, (s + k) % RING_SIZE, e⟩ i = RingBuffer.read ⟨b, s, e⟩ (i + k)
  unfold RingBuffer.read
  have hlen' : RingBuffer.len ⟨b, (s + k) % RING_SIZE, e⟩ =
      RingBuffer.len ⟨b, s, e⟩ - k := len_shift_mk b s e h2 h3 hk
  rw [hlen']
  rw [if_pos (show i < RingBuffer.len ⟨b, s, e⟩ - k from by omega), if_pos hik]
  have hidx : (i + (s + k) % RING_SIZE) % RING_SIZE = (i + k + s) % RING_SIZE := by
    simp only [RING_SIZE] at *
    omega
  rw [hidx]

theorem read_eq_getElem? (rb : RingBuffer) (i : Nat) :
    rb.read i = rb.get_all[i]? := by
  unfold RingBuffer.read RingBuffer.get_all
  rcases Nat.lt_or_ge i rb.len with hi | hi
  · rw [if_pos hi, List.getElem?_map, List.getElem?_range hi]
    show some (rb.buf.getD ((i + rb.start) % RING_SIZE) 0) =
      some (rb.buf.getD ((rb.start + i) % RING_SIZE) 0)
    rw [Nat.add_comm i rb.start]
  · rw [if_neg (by omega)]
    symm
    apply List.getElem?_eq_none
    simp only [List.length_map, List.length_range]
    omega

theorem read_none_iff (rb : RingBuffer) (i : Nat) :
    rb.read i = none ↔ rb.len ≤ i := by
  unfold RingBuffer.read
  split
  · simp only [reduceCtorEq, false_iff]
    omega
  · simp only [true_iff]
    omega

theorem len_clear (rb : RingBuffer) : rb.clear.len = 1 := rfl

theorem get_all_clear {rb : RingBuffer} (h : rb.Wf) : rb.clear.get_all = [0] := by
  unfold RingBuffer.clear RingBuffer.get_all
  rw [show RingBuffer.len ⟨rb.buf.set 0 0, 0, 1⟩ = 1 from rfl]
  rw [show List.range 1 = [0] from rfl, List.map_cons, List.map_nil]
  show [(rb.buf.set 0 0).getD ((0 + 0) % RING_SIZE) 0] = [0]
  rw [show (0 + 0) % RING_SIZE = 0 from by simp]
  rw [getD_set_self rb.buf 0 (by have := h.1; have := RING_SIZE_pos; omega)]

/-- State-passing embedding of the Rust append signature, in which the input
vector is received by mutable reference: the loop body for i in 0..vec.len()
reads vec[i], pushes it, and never writes to vec, so the vector travels
through the loop as part of the state and is returned alongside the result. -/
def RingBuffer.appendMut (rb : RingBuffer) (vec : List Nat) :
    (RingBuffer × Bool) × List Nat :=
  (List.range vec.length).foldl
    (fun p i => (p.1.1.push (p.2.getD i 0), p.2)) ((rb, false), vec)

theorem appendMut_snd_aux (l : List Nat) (p : (RingBuffer × Bool) × List Nat) :
    (l.foldl (fun p i => (p.1.1.push (p.2.getD i 0), p.2)) p).2 = p.2 := by
  induction l generalizing p with
  | nil => rfl
  | cons a t ih => exact ih _

theorem appendMut_fst_aux (l : List Nat) (vec : List Nat) :
    ∀ q : RingBuffer × Bool,
    (l.foldl (fun p i => (p.1.1.push (p.2.getD i 0), p.2)) (q, vec)).1 =
      l.foldl (fun r i => r.1.push (vec.getD i 0)) q := by
  induction l with
  | nil => intro q; rfl
  | cons a t ih => intro q; exact ih _

theorem foldl_range_getD_push (vec : List Nat) : ∀ q : RingBuffer × Bool,
    (List.range vec.length).foldl (fun r i => r.1.push (vec.getD i 0)) q =
      vec.foldl (fun r v => r.1.push v) q := by
  induction vec with
  | nil => intro q; rfl
  | cons a t ih =>
      intro q
      show (List.range (t.length + 1)).foldl
        (fun r i => r.1.push ((a :: t).getD i 0)) q = _
      rw [List.range_succ_eq_map, List.foldl_cons, List.foldl_map]
      have hfun : (fun (r : RingBuffer × Bool) i =>
          r.1.push ((a :: t).getD (Nat.succ i) 0)) =
          (fun (r : RingBuffer × Bool) i => r.1.push (t.getD i 0)) := by
        funext r i
        rfl
      rw [hfun]
      exact ih (q.1.push ((a :: t).getD 0 0))

theorem appendMut_fst (rb : RingBuffer) (vec : List Nat) :
    (rb.appendMut vec).1 = rb.append vec := by
  unfold RingBuffer.appendMut RingBuffer.append
  rw [appendMut_fst_aux, foldl_range_getD_push]

theorem appendMut_snd (rb : RingBuffer) (vec : List Nat) :
    (rb.appendMut vec).2 = vec :=
  appendMut_snd_aux (List.range vec.length) ((rb, false), vec)

/-- C1: every operation preserves the structural invariant; in every
reachable state the cursors satisfy 0 ≤ start < RING_SIZE and
0 ≤ end < RING_SIZE, and the derived logical length len() lies in
[1, RING_SIZE] — in particular no reachable state has length 0. -/
theorem C1_reachable_invariant (rb : RingBuffer) (h : Reachable rb) :
    0 ≤ rb.start ∧ rb.start < RING_SIZE ∧ 0 ≤ rb.end_ ∧ rb.end_ < RING_SIZE ∧
    1 ≤ rb.len ∧ rb.len ≤ RING_SIZE := by
  have w := reachable_wf h
  exact ⟨Nat.zero_le _, w.2.1, Nat.zero_le _, w.2.2, len_pos w, len_le w⟩

/-- Witness for C1 at the freshly constructed buffer. -/
theorem C1_witness :
    0 ≤ RingBuffer.new.start ∧ RingBuffer.new.start < RING_SIZE ∧
    0 ≤ RingBuffer.new.end_ ∧ RingBuffer.new.end_ < RING_SIZE ∧
    1 ≤ RingBuffer.new.len ∧ RingBuffer.new.len ≤ RING_SIZE :=
  C1_reachable_invariant RingBuffer.new Reachable.new

/-- C2: pushing RING_SIZE + k bytes (k ≥ 1) one at a time onto a fresh buffer
makes the final push return overflow flag true, leaves len() = RING_SIZE, and
makes get_all() equal to the most recent RING_SIZE pushed values in push
order (oldest surviving value first). -/
theorem C2_overflow_window (t : List Nat) (v : Nat) (k : Nat) (hk : 1 ≤ k)
    (hlen : (t ++ [v]).length = RING_SIZE + k) :
    ((RingBuffer.new.pushAll t).push v).2 = true ∧
    (RingBuffer.new.pushAll (t ++ [v])).len = RING_SIZE ∧
    (RingBuffer.new.pushAll (t ++ [v])).get_all =
      (t ++ [v]).drop ((t ++ [v]).length - RING_SIZE) := by
  have hlt : t.length + 1 = RING_SIZE + k := by simpa using hlen
  refine ⟨?_, ?_, ?_⟩
  · rw [push_snd]
    apply (len_eq_size_iff (wf_pushAll wf_new t)).mp
    rw [len_pushAll_new]
    omega
  · rw [len_pushAll_new]
    omega
  · rw [pushAll_new_get_all]
    rw [show ([0] ++ (t ++ [v])) = 0 :: (t ++ [v]) from rfl]
    rw [show 1 + (t ++ [v]).length - RING_SIZE =
      ((t ++ [v]).length - RING_SIZE) + 1 from by omega]
    rw [List.drop_succ_cons]

/-- Witness for C2 with k = 1: 1025 bytes pushed onto a fresh buffer. -/
theorem C2_witness :
    1 ≤ 1 ∧ (List.replicate RING_SIZE 3 ++ [7]).length = RING_SIZE + 1 ∧
    (((RingBuffer.new.pushAll (List.replicate RING_SIZE 3)).push 7).2 = true ∧
     (RingBuffer.new.pushAll (List.replicate RING_SIZE 3 ++ [7])).len = RING_SIZE ∧
     (RingBuffer.new.pushAll (List.replicate RING_SIZE 3 ++ [7])).get_all =
       (List.replicate RING_SIZE 3 ++ [7]).drop
         ((List.replicate RING_SIZE 3 ++ [7]).length - RING_SIZE)) :=
  ⟨le_refl 1, by simp,
    C2_overflow_window (List.replicate RING_SIZE 3) 7 1 (le_refl 1) (by simp)⟩

/-- C3: push writes the value at the slot indexed by the old end, advances
end by one modulo RING_SIZE, and returns true exactly when start = end held
before the push, which under reachability is exactly the full state
len = RING_SIZE; in that case start also advances by one modulo RING_SIZE;
len grows by exactly one on a false flag and stays RING_SIZE on a true
flag. -/
theorem C3_push_spec (rb : RingBuffer) (v : Nat) (h : Reachable rb) :
    (rb.push v).1.buf.getD rb.end_ 0 = v ∧
    (rb.push v).1.end_ = (rb.end_ + 1) % RING_SIZE ∧
    ((rb.push v).2 = true ↔ rb.start = rb.end_) ∧
    (rb.start = rb.end_ ↔ rb.len = RING_SIZE) ∧
    (rb.start = rb.end_ → (rb.push v).1.start = (rb.start + 1) % RING_SIZE) ∧
    (rb.start ≠ rb.end_ → (rb.push v).1.start = rb.start) ∧
    ((rb.push v).2 = false → (rb.push v).1.len = rb.len + 1) ∧
    ((rb.push v).2 = true → rb.len = RING_SIZE ∧ (rb.push v).1.len = RING_SIZE) := by
  have w := reachable_wf h
  refine ⟨?_, push_end rb v, push_snd rb v, (len_eq_size_iff w).symm,
    fun hse => push_start_full hse v, fun hse => push_start_nonfull hse v, ?_, ?_⟩
  · rw [push_buf]
    exact getD_set_self rb.buf v (by have := w.1; have := w.2.2; omega)
  · intro hfalse
    have hse : rb.start ≠ rb.end_ := by
      intro hc
      have hcontra := (push_snd rb v).mpr hc
      rw [hfalse] at hcontra
      exact Bool.false_ne_true hcontra
    rw [len_push w, if_neg hse]
  · intro htrue
    have hse := (push_snd rb v).mp htrue
    refine ⟨(len_eq_size_iff w).mpr hse, ?_⟩
    rw [len_push w, if_pos hse]

/-- Witness for C3 at the freshly constructed buffer, pushing the byte 5. -/
theorem C3_witness :
    (RingBuffer.new.push 5).1.buf.getD RingBuffer.new.end_ 0 = 5 ∧
    (RingBuffer.new.push 5).1.end_ = (RingBuffer.new.end_ + 1) % RING_SIZE ∧
    ((RingBuffer.new.push 5).2 = true ↔ RingBuffer.new.start = RingBuffer.new.end_) ∧
    (RingBuffer.new.start = RingBuffer.new.end_ ↔ RingBuffer.new.len = RING_SIZE) ∧
    (RingBuffer.new.start = RingBuffer.new.end_ →
      (RingBuffer.new.push 5).1.start = (RingBuffer.new.start + 1) % RING_SIZE) ∧
    (RingBuffer.new.start ≠ RingBuffer.new.end_ →
      (RingBuffer.new.push 5).1.start = RingBuffer.new.start) ∧
    ((RingBuffer.new.push 5).2 = false →
      (RingBuffer.new.push 5).1.len = RingBuffer.new.len + 1) ∧
    ((RingBuffer.new.push 5).2 = true →
      RingBuffer.new.len = RING_SIZE ∧ (RingBuffer.new.push 5).1.len = RING_SIZE) :=
  C3_push_spec RingBuffer.new 5 Reachable.new

/-- C4: shift_l returns the error exactly when count ≥ len(); on the error
path the whole state (start, end and storage) is returned unchanged, so the
operation is atomic; on success start advances by count modulo RING_SIZE,
end and storage are untouched, and len decreases by count but never below 1;
shift_l 0 succeeds as a no-op. -/
theorem C4_shift_l_spec (rb : RingBuffer) (count : Nat) (h : Reachable rb) :
    ((rb.shift_l count).2 = Except.error "Shift num is out of length." ↔
      rb.len ≤ count) ∧
    (rb.len ≤ count → (rb.shift_l count).1 = rb) ∧
    (count < rb.len →
      (rb.shift_l count).2 = Except.ok () ∧
      (rb.shift_l count).1.start = (rb.start + count) % RING_SIZE ∧
      (rb.shift_l count).1.end_ = rb.end_ ∧
      (rb.shift_l count).1.buf = rb.buf ∧
      (rb.shift_l count).1.len = rb.len - count ∧
      1 ≤ (rb.shift_l count).1.len) ∧
    rb.shift_l 0 = (rb, Except.ok ()) := by
  have w := reachable_wf h
  refine ⟨⟨?_, ?_⟩, ?_, ?_, shift_l_zero w⟩
  · intro herr
    by_contra hcl
    rw [shift_l_ok_eq (by omega)] at herr
    exact absurd herr (by simp)
  · intro hle
    rw [shift_l_err_eq (by omega)]
  · intro hle
    rw [shift_l_err_eq (by omega)]
  · intro hlt
    refine ⟨by rw [shift_l_ok_eq hlt], by rw [shift_l_ok_eq hlt],
      by rw [shift_l_ok_eq hlt], by rw [shift_l_ok_eq hlt],
      len_shift w hlt, ?_⟩
    rw [len_shift w hlt]
    omega

/-- Witness for C4 at the freshly constructed buffer with count 1
(rejected, since len is 1). -/
theorem C4_witness :
    ((RingBuffer.new.shift_l 1).2 = Except.error "Shift num is out of length." ↔
      RingBuffer.new.len ≤ 1) ∧
    (RingBuffer.new.len ≤ 1 → (RingBuffer.new.shift_l 1).1 = RingBuffer.new) ∧
    (1 < RingBuffer.new.len →
      (RingBuffer.new.shift_l 1).2 = Except.ok () ∧
      (RingBuffer.new.shift_l 1).1.start = (RingBuffer.new.start + 1) % RING_SIZE ∧
      (RingBuffer.new.shift_l 1).1.end_ = RingBuffer.new.end_ ∧
      (RingBuffer.new.shift_l 1).1.buf = RingBuffer.new.buf ∧
      (RingBuffer.new.shift_l 1).1.len = RingBuffer.new.len - 1 ∧
      1 ≤ (RingBuffer.new.shift_l 1).1.len) ∧
    RingBuffer.new.shift_l 0 = (RingBuffer.new, Except.ok ()) :=
  C4_shift_l_spec RingBuffer.new 1 Reachable.new

/-- C5: read i returns none exactly when i ≥ len(), read agrees with
get_all() at every index, and for i < len() it returns some value equal to
element i of get_all(); read is total — no index is a fault. -/
theorem C5_read_spec (rb : RingBuffer) (h : Reachable rb) :
    (∀ i, rb.read i = none ↔ rb.len ≤ i) ∧
    (∀ i, rb.read i = rb.get_all[i]?) ∧
    (∀ i, i < rb.len → ∃ x, rb.read i = some x ∧ rb.get_all[i]? = some x) := by
  refine ⟨read_none_iff rb, read_eq_getElem? rb, ?_⟩
  intro i hi
  have hr := read_eq_getElem? rb i
  rcases hx : rb.read i with _ | x
  · rw [read_none_iff] at hx
    omega
  · exact ⟨x, rfl, by rw [← hr, hx]⟩

/-- Witness for C5 at the freshly constructed buffer. -/
theorem C5_witness :
    (∀ i, RingBuffer.new.read i = none ↔ RingBuffer.new.len ≤ i) ∧
    (∀ i, RingBuffer.new.read i = RingBuffer.new.get_all[i]?) ∧
    (∀ i, i < RingBuffer.new.len →
      ∃ x, RingBuffer.new.read i = some x ∧ RingBuffer.new.get_all[i]? = some x) :=
  C5_read_spec RingBuffer.new Reachable.new

/-- C6: immediately after construction and immediately after clear() on any
reachable state, len() = 1, get_all() = [0], start = 0, end = 1, and the
byte at storage index 0 is zero. -/
theorem C6_new_clear (rb : RingBuffer) (h : Reachable rb) :
    RingBuffer.new.len = 1 ∧ RingBuffer.new.get_all = [0] ∧
    RingBuffer.new.start = 0 ∧ RingBuffer.new.end_ = 1 ∧
    RingBuffer.new.buf.getD 0 0 = 0 ∧
    rb.clear.len = 1 ∧ rb.clear.get_all = [0] ∧
    rb.clear.start = 0 ∧ rb.clear.end_ = 1 ∧ rb.clear.buf.getD 0 0 = 0 := by
  have w := reachable_wf h
  refine ⟨len_new, get_all_new, rfl, rfl, ?_, len_clear rb, get_all_clear w,
    rfl, rfl, ?_⟩
  · show (List.replicate RING_SIZE 0).getD 0 0 = 0
    rw [List.getD_eq_getElem?_getD, List.getElem?_replicate_of_lt RING_SIZE_pos]
    rfl
  · show (rb.buf.set 0 0).getD 0 0 = 0
    exact getD_set_self rb.buf 0 (by have := w.1; have := RING_SIZE_pos; omega)

/-- Witness for C6, clearing the freshly constructed buffer. -/
theorem C6_witness :
    RingBuffer.new.len = 1 ∧ RingBuffer.new.get_all = [0] ∧
    RingBuffer.new.start = 0 ∧ RingBuffer.new.end_ = 1 ∧
    RingBuffer.new.buf.getD 0 0 = 0 ∧
    RingBuffer.new.clear.len = 1 ∧ RingBuffer.new.clear.get_all = [0] ∧
    RingBuffer.new.clear.start = 0 ∧ RingBuffer.new.clear.end_ = 1 ∧
    RingBuffer.new.clear.buf.getD 0 0 = 0 :=
  C6_new_clear RingBuffer.new Reachable.new

/-- C7: append is push applied to each input byte in order (its state is
pushAll and its flag is the last push's flag); on the empty input it
performs no pushes, changes nothing, and returns false. -/
theorem C7_append_spec (rb : RingBuffer) (s : List Nat) (h : Reachable rb) :
    (rb.append s).1 = rb.pushAll s ∧
    (∀ t v, s = t ++ [v] → (rb.append s).2 = ((rb.pushAll t).push v).2) ∧
    rb.append [] = (rb, false) ∧
    (rb.append []).1.len = rb.len ∧
    (rb.append []).1.get_all = rb.get_all := by
  refine ⟨append_eq_pushAll rb s, ?_, rfl, rfl, rfl⟩
  intro t v hs
  rw [hs]
  exact append_snd_last rb t v

/-- Witness for C7 at the freshly constructed buffer appending [4]. -/
theorem C7_witness :
    (RingBuffer.new.append [4]).1 = RingBuffer.new.pushAll [4] ∧
    (∀ t v, [4] = t ++ [v] →
      (RingBuffer.new.append [4]).2 = ((RingBuffer.new.pushAll t).push v).2) ∧
    RingBuffer.new.append [] = (RingBuffer.new, false) ∧
    (RingBuffer.new.append []).1.len = RingBuffer.new.len ∧
    (RingBuffer.new.append []).1.get_all = RingBuffer.new.get_all :=
  C7_append_spec RingBuffer.new [4] Reachable.new

/-- C8: when shift_l k succeeds, read 0 afterwards returns what read k
returned before, and read i afterwards equals read (i + k) before for every
i with i + k < len(). -/
theorem C8_shift_then_read (rb : RingBuffer) (k : Nat) (h : Reachable rb)
    (hok : (rb.shift_l k).2 = Except.ok ()) :
    (rb.shift_l k).1.read 0 = rb.read k ∧
    ∀ i, i + k < rb.len → (rb.shift_l k).1.read i = rb.read (i + k) := by
  have w := reachable_wf h
  have hk : k < rb.len := by
    by_contra hc
    rw [shift_l_err_eq hc] at hok
    exact absurd hok (by simp)
  constructor
  · have h0 := read_shift w hk 0 (by omega)
    rwa [Nat.zero_add] at h0
  · intro i hik
    exact read_shift w hk i hik

/-- Witness for C8: shifting the fresh buffer by 0 succeeds. -/
theorem C8_witness :
    (RingBuffer.new.shift_l 0).2 = Except.ok () ∧
    ((RingBuffer.new.shift_l 0).1.read 0 = RingBuffer.new.read 0 ∧
     ∀ i, i + 0 < RingBuffer.new.len →
       (RingBuffer.new.shift_l 0).1.read i = RingBuffer.new.read (i + 0)) :=
  ⟨rfl, C8_shift_then_read RingBuffer.new 0 Reachable.new rfl⟩

/-- C9: clear writes zero only to storage index 0; every slot at indices
1 .. RING_SIZE - 1 keeps the exact byte it held before, and the storage
length is unchanged. -/
theorem C9_clear_frame (rb : RingBuffer) (h : Reachable rb) :
    rb.clear.buf = rb.buf.set 0 0 ∧
    rb.clear.buf.getD 0 0 = 0 ∧
    (∀ j, 1 ≤ j → j < RING_SIZE → rb.clear.buf.getD j 0 = rb.buf.getD j 0) ∧
    rb.clear.buf.length = rb.buf.length := by
  have w := reachable_wf h
  refine ⟨rfl,
    getD_set_self rb.buf 0 (by have := w.1; have := RING_SIZE_pos; omega), ?_,
    by simp [RingBuffer.clear]⟩
  intro j h1j hjC
  exact getD_set_ne rb.buf 0 (by omega)

/-- Witness for C9 at the freshly constructed buffer. -/
theorem C9_witness :
    RingBuffer.new.clear.buf = RingBuffer.new.buf.set 0 0 ∧
    RingBuffer.new.clear.buf.getD 0 0 = 0 ∧
    (∀ j, 1 ≤ j → j < RING_SIZE →
      RingBuffer.new.clear.buf.getD j 0 = RingBuffer.new.buf.getD j 0) ∧
    RingBuffer.new.clear.buf.length = RingBuffer.new.buf.length :=
  C9_clear_frame RingBuffer.new Reachable.new

/-- C10: with the mutable input vector embedded as threaded state, append
returns the vector with identical contents and length — it only reads its
input — and its buffer-and-flag result is exactly append. -/
theorem C10_append_input_preserved (rb : RingBuffer) (vec : List Nat)
    (h : Reachable rb) :
    (rb.appendMut vec).2 = vec ∧
    (rb.appendMut vec).2.length = vec.length ∧
    (rb.appendMut vec).1 = rb.append vec := by
  refine ⟨appendMut_snd rb vec, by rw [appendMut_snd], appendMut_fst rb vec⟩

/-- Witness for C10 at the freshly constructed buffer with input [1, 2]. -/
theorem C10_witness :
    (RingBuffer.new.appendMut [1, 2]).2 = [1, 2] ∧
    (RingBuffer.new.appendMut [1, 2]).2.length = ([1, 2] : List Nat).length ∧
    (RingBuffer.new.appendMut [1, 2]).1 = RingBuffer.new.append [1, 2] :=
  C10_append_input_preserved RingBuffer.new [1, 2] Reachable.new
